import Mathlib

/-!
Verification of the dictate session orchestrator (speech-to-text-parakeet).

Shallow embedding of the repository's core components:
* `src/dictate/audio.py`   — `AudioCapture` (buffer, callback, stop, get_audio)
* `src/dictate/hotkey.py`  — `HotkeyListener` state machine
* `src/dictate/__main__.py`— `Dictate` orchestrator (`_on_start`, `_stream_transcription`,
  `_final_streaming_pass`, `_on_stop` finalize)
* `src/dictate/transcribe.py` — `Transcriber.transcribe`

Audio samples (float32 in the source) are treated as opaque values and
modelled as integers; the claims under study never inspect sample values.
Wall-clock instants (`time.monotonic()`, a float in the source) are
modelled as rationals.  Concurrent reads of the audio buffer and calls
into the black-box transcription engine are modelled as explicit inputs:
a snapshot is the list of samples the call returns, a transcriber call is
an `Except Unit String` (exception or returned text).
-/

/-! ### AudioCapture (src/dictate/audio.py) -/

/-- State of `AudioCapture`: the `_recording` flag and the `_buffer` deque
of appended chunks (each chunk a list of samples, in arrival order). -/
structure AudioState where
  recording : Bool
  buffer : List (List ℤ)
deriving DecidableEq

/-- `AudioCapture._audio_callback` (audio.py lines 23-36), as a transform of
the buffer state for one arriving chunk.  `hasCallback` is whether a
streaming observer callback was registered in `start()`.  Returns the new
state and whether the chunk was delivered to the observer.  In the source,
both the append and the observer call sit inside `if self._recording:`. -/
def audioCallback (chunk : List ℤ) (hasCallback : Bool) (s : AudioState) :
    AudioState × Bool :=
  if s.recording then
    ({ s with buffer := s.buffer ++ [chunk] }, hasCallback)
  else
    (s, false)

/-- `AudioCapture.stop` (audio.py lines 54-65): clears `_recording`,
concatenates and clears the buffer, returns the accumulated audio. -/
def audioStop (s : AudioState) : AudioState × List ℤ :=
  ({ recording := false, buffer := [] }, s.buffer.flatten)

/-- `AudioCapture.get_audio` (audio.py lines 74-79): non-destructively
concatenates all buffered chunks in arrival order. -/
def get_audio (s : AudioState) : List ℤ × AudioState :=
  (s.buffer.flatten, s)

/-- The bare deque append of audio.py line 33 (`self._buffer.append(chunk)`):
chunks are appended at the right, in arrival order. -/
def appendChunk (chunk : List ℤ) (s : AudioState) : AudioState :=
  { s with buffer := s.buffer ++ [chunk] }

/-- `N` successive `get_audio` calls, collecting each returned snapshot and
threading the state. -/
def iterateSnapshots : ℕ → AudioState → List (List ℤ) × AudioState
  | 0, s => ([], s)
  | n + 1, s =>
    let r := get_audio s
    let rest := iterateSnapshots n r.2
    (r.1 :: rest.1, rest.2)

theorem audioCallback_not_recording (chunk : List ℤ) (cb : Bool) (s : AudioState)
    (h : s.recording = false) : audioCallback chunk cb s = (s, false) := by
  simp [audioCallback, h]

theorem sanity_get_audio : (get_audio ⟨true, [[1, 2], [3]]⟩).1 = [1, 2, 3] := by
  decide

/-- Appending chunks `cs` one by one to a state yields the old buffer
extended by `cs`. -/
theorem appendChunk_foldl (cs : List (List ℤ)) (s : AudioState) :
    cs.foldl (fun t c => appendChunk c t) s =
      { s with buffer := s.buffer ++ cs } := by
  induction cs generalizing s with
  | nil => simp
  | cons c cs ih =>
    rw [List.foldl_cons, ih]
    simp [appendChunk]

/-- `iterateSnapshots` never mutates the state and returns the same
concatenation every time. -/
theorem iterateSnapshots_eq (n : ℕ) (s : AudioState) :
    iterateSnapshots n s = (List.replicate n s.buffer.flatten, s) := by
  induction n with
  | zero => simp [iterateSnapshots]
  | succ n ih => simp [iterateSnapshots, get_audio, ih, List.replicate_succ]

/-- Claim C7: for any N, M ≥ 0, after M chunks have been appended to the
AudioBuffer, every one of N successive snapshot (`get_audio`) calls returns
the concatenation of exactly those M chunks in arrival order, and calling
snapshot does not remove or alter any buffered chunk (an empty sequence is
returned when M = 0). -/
theorem snapshot_concat_nondestructive (cs : List (List ℤ)) (n : ℕ) (r : Bool) :
    (iterateSnapshots n (cs.foldl (fun t c => appendChunk c t) ⟨r, []⟩)).1 =
        List.replicate n cs.flatten ∧
      (iterateSnapshots n (cs.foldl (fun t c => appendChunk c t) ⟨r, []⟩)).2 =
        ⟨r, cs⟩ ∧
      ([] : List (List ℤ)).foldl (fun t c => appendChunk c t) ⟨r, []⟩ =
        (⟨r, []⟩ : AudioState) := by
  rw [appendChunk_foldl, iterateSnapshots_eq]
  simp

/-- Counterexample to claim C4 as stated: start recording, append a chunk,
run `stop()`; a chunk arriving afterwards with a streaming observer
registered is NOT delivered to the observer (the delivery sits inside
`if self._recording:` in `_audio_callback`), contradicting the claim that
it is still delivered. -/
theorem stopped_chunk_not_delivered :
    ¬ ((audioCallback [3] true ((audioStop ⟨true, [[1, 2]]⟩).1)).2 = true) := by
  decide

/-- Claim C4 (amended): after `AudioBuffer.stop()` has completed, a chunk
arriving from the capture source is ignored entirely — neither appended to
the buffer nor delivered to the streaming observer callback, even when one
is registered. -/
theorem stopped_chunk_ignored (chunk : List ℤ) (cb : Bool) (s : AudioState) :
    audioCallback chunk cb ((audioStop s).1) = ((audioStop s).1, false) := by
  simp [audioCallback, audioStop]

/-! ### Session orchestrator (src/dictate/__main__.py, class Dictate) -/

/-- Orchestrator session state: the `_stop_streaming` event, the
`_last_partial` text and the `_last_transcribe_time` monotonic instant. -/
structure OrchState where
  stopStreaming : Bool
  lastPartial : String
  lastTranscribeTime : ℚ
deriving DecidableEq

/-- The state effect of `Dictate._on_start` (lines 69-85): clears the stop
event and the last partial text.  `_last_transcribe_time` is NOT touched by
`_on_start` anywhere in the source. -/
def onStart (s : OrchState) : OrchState :=
  { stopStreaming := false, lastPartial := "", lastTranscribeTime := s.lastTranscribeTime }

/-- The side effects of `Dictate._on_start` (lines 69-85) in program order. -/
inductive StartAction where
  | clearStopSignal
  | resetLastPartial
  | startCapture
  | playStartSound
  | printRecording
  | spawnOverlay
  | showOverlay
  | launchStreamingThread
deriving DecidableEq, BEq

/-- Trace of `Dictate._on_start`: the sequence of its side effects as they
appear in the source, top to bottom. -/
def onStartActions : List StartAction :=
  [.clearStopSignal, .resetLastPartial, .startCapture, .playStartSound,
   .printRecording, .spawnOverlay, .showOverlay, .launchStreamingThread]

/-- Claim C2: on every SessionStart the orchestrator starts AudioBuffer
capture strictly before it emits the audible start confirmation and before
it sends the `show` command to the feedback channel. -/
theorem capture_before_confirmation :
    onStartActions.indexOf .startCapture < onStartActions.indexOf .playStartSound ∧
      onStartActions.indexOf .startCapture < onStartActions.indexOf .showOverlay := by
  decide

/-- `Dictate._final_streaming_pass` (lines 135-152).  `now` is the value of
`time.monotonic()` at entry, `audioData` the snapshot `get_audio` returns,
`tr` the outcome of the (single possible) transcriber call: `.error` when
`transcribe` raises, `.ok text` otherwise.  Returns the new state and the
number of transcriber calls performed. -/
def finalStreamingPass (now : ℚ) (audioData : List ℤ) (tr : Except Unit String)
    (s : OrchState) : OrchState × ℕ :=
  if now - s.lastTranscribeTime < 8/10 then (s, 0)
  else if audioData.length < 1600 then (s, 0)
  else
    match tr with
    | .ok text => (if text ≠ "" then { s with lastPartial := text } else s, 1)
    | .error _ => (s, 1)

/-- Claim C1: if the most recent successful streaming pass completed less
than 0.8s before finalize runs, finalize performs zero transcriber calls;
if it completed more than 0.8s before, finalize performs exactly one call
provided the snapshot holds at least 1600 samples, and overwrites the last
partial result only when that call returns non-empty text. -/
theorem final_pass_recency (now : ℚ) (audioData : List ℤ)
    (tr : Except Unit String) (s : OrchState) :
    (now - s.lastTranscribeTime < 8/10 →
        finalStreamingPass now audioData tr s = (s, 0)) ∧
      (8/10 < now - s.lastTranscribeTime → 1600 ≤ audioData.length →
        (finalStreamingPass now audioData tr s).2 = 1 ∧
          (finalStreamingPass now audioData tr s).1.lastPartial =
            (match tr with
              | .ok text => if text ≠ "" then text else s.lastPartial
              | .error _ => s.lastPartial)) := by
  constructor
  · intro h
    simp [finalStreamingPass, h]
  · intro h hlen
    have h1 : ¬ (now - s.lastTranscribeTime < 8/10) := by linarith
    have h2 : ¬ (audioData.length < 1600) := by omega
    cases tr with
    | ok text =>
      by_cases ht : text = ""
      · simp [finalStreamingPass, h1, h2, ht]
      · simp [finalStreamingPass, h1, h2, ht]
    | error e => simp [finalStreamingPass, h1, h2]

/-- Witness for `final_pass_recency` at concrete inputs: stop 2.0s after the
last pass with 1600 buffered samples gives exactly one call whose non-empty
result overwrites the partial; stop 0.5s after gives zero calls. -/
theorem final_pass_recency_witness :
    (finalStreamingPass 2 (List.replicate 1600 0) (Except.ok "hi") ⟨false, "", 0⟩).2 = 1 ∧
      (finalStreamingPass 2 (List.replicate 1600 0) (Except.ok "hi") ⟨false, "", 0⟩).1.lastPartial = "hi" ∧
      finalStreamingPass (1/2) [] (Except.ok "hi") ⟨false, "old", 0⟩ = (⟨false, "old", 0⟩, 0) := by
  have h2 := (final_pass_recency 2 (List.replicate 1600 0) (Except.ok "hi")
    ⟨false, "", 0⟩).2 (by norm_num) (le_of_eq (List.length_replicate 1600 0).symm)
  have h1 := (final_pass_recency (1/2) [] (Except.ok "hi") ⟨false, "old", 0⟩).1
    (by norm_num)
  refine ⟨h2.1, ?_, h1⟩
  rw [h2.2]
  rfl

/-- A session state as left behind by a previous session whose last
successful streaming pass completed at monotonic time 100. -/
def prevSession : OrchState :=
  { stopStreaming := true, lastPartial := "previous words", lastTranscribeTime := 100 }

/-- Claim C5 evidence (code bug): `_on_start` clears the stop event and the
last partial text but does NOT reset `_last_transcribe_time`, so the
timestamp component of the last-partial state survives into the new
session.  Consequence at a concrete input: a new session starting right
after the previous one and stopped 0.3s after that session's last pass
finds `now - _last_transcribe_time = 0.3 < 0.8`, so finalize performs zero
transcriber calls even though 16000 fresh samples are buffered and the
transcriber would have returned non-empty text; the session's final text
stays empty. -/
theorem onStart_keeps_stale_timestamp :
    (onStart prevSession).stopStreaming = false ∧
      (onStart prevSession).lastPartial = "" ∧
      (onStart prevSession).lastTranscribeTime = 100 ∧
      (finalStreamingPass (100 + 3/10) (List.replicate 16000 0)
        (Except.ok "fresh words") (onStart prevSession)).2 = 0 ∧
      (finalStreamingPass (100 + 3/10) (List.replicate 16000 0)
        (Except.ok "fresh words") (onStart prevSession)).1.lastPartial = "" := by
  have h : ((100 : ℚ) + 3/10) - (onStart prevSession).lastTranscribeTime < 8/10 := by
    norm_num [onStart, prevSession]
  have hfp : finalStreamingPass (100 + 3/10) (List.replicate 16000 0)
      (Except.ok "fresh words") (onStart prevSession) = (onStart prevSession, 0) := by
    unfold finalStreamingPass
    rw [if_pos h]
  refine ⟨rfl, rfl, rfl, ?_, ?_⟩
  · rw [hfp]
  · rw [hfp]
    rfl

/-- One iteration body of the polling loop in `Dictate._stream_transcription`
(lines 99-130): `audioData` is the `get_audio` snapshot, `tr` the outcome of
the transcriber call (`.error` when `transcribe` raises), `now` the value
`time.monotonic()` would return after a successful call.  A snapshot below
4800 samples skips the transcriber; an exception is swallowed (`except
Exception: pass`) and leaves the state unchanged; a successful call records
the completion time and, when the text is non-empty and differs from the
previous partial, records the new partial. -/
structure PollInput where
  audioData : List ℤ
  tr : Except Unit String
  now : ℚ

def pollStep (p : PollInput) (s : OrchState) : OrchState :=
  if p.audioData.length < 4800 then s
  else
    match p.tr with
    | .error _ => s
    | .ok text =>
      if text ≠ "" ∧ text ≠ s.lastPartial then
        { s with lastTranscribeTime := p.now, lastPartial := text }
      else
        { s with lastTranscribeTime := p.now }

/-- Input to the final pass at the end of `_stream_transcription`. -/
structure FinalInput where
  audioData : List ℤ
  tr : Except Unit String
  now : ℚ

/-- `Dictate._stream_transcription` (lines 87-133) over a resolved schedule:
`polls` are the loop iterations that ran before the stop signal was
observed (the stop event only decides how many iterations run, which the
schedule fixes), followed by the one `_final_streaming_pass`. -/
def streamTranscription (polls : List PollInput) (fin : FinalInput)
    (s : OrchState) : OrchState × ℕ :=
  finalStreamingPass fin.now fin.audioData fin.tr
    (polls.foldl (fun t p => pollStep p t) s)

/-- Outcome reported by the `finalize` closure of `Dictate._on_stop`
(lines 169-192): output the final text when non-empty, otherwise report
"no speech detected" (a print, not an exception). -/
inductive StopOutcome where
  | output (text : String)
  | noSpeech
deriving DecidableEq

def finalizeOutcome (s : OrchState) : StopOutcome :=
  if s.lastPartial = "" then .noSpeech else .output s.lastPartial

theorem pollStep_error (p : PollInput) (s : OrchState)
    (h : p.tr = Except.error ()) : pollStep p s = s := by
  unfold pollStep
  rw [h]
  split <;> rfl

theorem foldl_pollStep_error (polls : List PollInput) (s : OrchState)
    (h : ∀ p ∈ polls, p.tr = Except.error ()) :
    polls.foldl (fun t p => pollStep p t) s = s := by
  induction polls with
  | nil => rfl
  | cons p rest ih =>
    rw [List.foldl_cons, pollStep_error p s (h p (List.mem_cons_self p rest))]
    exact ih fun q hq => h q (List.mem_cons_of_mem p hq)

theorem finalStreamingPass_failed (now : ℚ) (audioData : List ℤ)
    (tr : Except Unit String) (s : OrchState)
    (h : tr = Except.error () ∨ audioData.length < 1600) :
    (finalStreamingPass now audioData tr s).1 = s := by
  unfold finalStreamingPass
  rcases h with h | h
  · subst h
    by_cases hA : now - s.lastTranscribeTime < 8/10
    · rw [if_pos hA]
    · by_cases hB : audioData.length < 1600
      · rw [if_neg hA, if_pos hB]
      · rw [if_neg hA, if_neg hB]
  · by_cases hA : now - s.lastTranscribeTime < 8/10
    · rw [if_pos hA]
    · rw [if_neg hA, if_pos h]

/-- Claim C9: a transcriber exception during a polling pass is swallowed and
the loop continues with unchanged state; if the transcriber raises on every
call, the session still reaches the finalize step, and when finalize also
fails (or its snapshot is below the 1600-sample minimum) the session
reports "no speech detected" as a non-fatal outcome. -/
theorem transcriber_errors_swallowed (polls : List PollInput) (fin : FinalInput)
    (s : OrchState) (h0 : s.lastPartial = "")
    (hall : ∀ p ∈ polls, p.tr = Except.error ())
    (hfin : fin.tr = Except.error () ∨ fin.audioData.length < 1600) :
    (∀ p t, p.tr = Except.error () → pollStep p t = t) ∧
      (streamTranscription polls fin s).1.lastPartial = "" ∧
      finalizeOutcome (streamTranscription polls fin s).1 = StopOutcome.noSpeech := by
  have hfold := foldl_pollStep_error polls s hall
  have hfinal := finalStreamingPass_failed fin.now fin.audioData fin.tr s hfin
  have hstate : (streamTranscription polls fin s).1 = s := by
    unfold streamTranscription
    rw [hfold, hfinal]
  refine ⟨fun p t hp => pollStep_error p t hp, ?_, ?_⟩
  · rw [hstate, h0]
  · rw [hstate]
    simp [finalizeOutcome, h0]

/-- Witness for `transcriber_errors_swallowed`: one polling iteration with
4800 buffered samples and a raising transcriber, then a finalize pass whose
transcriber also raises, starting from a fresh session state. -/
theorem transcriber_errors_swallowed_witness :
    (streamTranscription [⟨List.replicate 4800 0, Except.error (), 1⟩]
        ⟨List.replicate 4800 0, Except.error (), 2⟩ ⟨false, "", 0⟩).1.lastPartial = "" ∧
      finalizeOutcome (streamTranscription [⟨List.replicate 4800 0, Except.error (), 1⟩]
        ⟨List.replicate 4800 0, Except.error (), 2⟩ ⟨false, "", 0⟩).1 = StopOutcome.noSpeech := by
  have h := transcriber_errors_swallowed
    [⟨List.replicate 4800 0, Except.error (), 1⟩]
    ⟨List.replicate 4800 0, Except.error (), 2⟩ ⟨false, "", 0⟩ rfl
    (by intro p hp; rw [List.mem_singleton] at hp; rw [hp]) (Or.inl rfl)
  exact ⟨h.2.1, h.2.2⟩

/-! ### Transcriber.transcribe (src/dictate/transcribe.py, lines 35-78) -/

/-- `Transcriber.transcribe`, assuming `_load_model` already succeeded (the
method begins by calling it; when the model is loaded it returns at once).
`tempWrite` is the outcome of writing the temp wav file (`sf.write`),
`modelRun` the outcome of `self._model.transcribe` followed by reading
`.text` (`.error` when any of it raises).  The whole attempt sits in a
`try`/`except Exception` that returns the empty string, so the function
always returns a string.  The second component records whether the model
was invoked.  Python's `.strip()` is modelled by `String.trim`. -/
def transcribe (audio : List ℤ) (tempWrite : Except Unit Unit)
    (modelRun : Except Unit String) : String × Bool :=
  if audio.length = 0 then ("", false)
  else
    match tempWrite with
    | .error _ => ("", false)
    | .ok _ =>
      match modelRun with
      | .error _ => ("", true)
      | .ok t => (t.trim, true)

/-- Claim C10: assuming the model is loaded, `Transcriber.transcribe` never
propagates an exception (its result is a plain string for every input): an
empty input returns the empty string without invoking the model, an
exception while writing the temp file returns the empty string without
invoking the model, and an exception while running the model returns the
empty string. -/
theorem transcribe_never_raises (audio : List ℤ) (tempWrite : Except Unit Unit)
    (modelRun : Except Unit String) :
    (audio.length = 0 → transcribe audio tempWrite modelRun = ("", false)) ∧
      (tempWrite = Except.error () → transcribe audio tempWrite modelRun = ("", false)) ∧
      (modelRun = Except.error () → (transcribe audio tempWrite modelRun).1 = "") := by
  refine ⟨fun h => by simp [transcribe, h], fun h => ?_, fun h => ?_⟩
  · subst h
    unfold transcribe
    split <;> rfl
  · subst h
    unfold transcribe
    split
    · rfl
    · cases tempWrite <;> rfl

/-- Witness for `transcribe_never_raises`: empty input, failing temp-file
write, failing model run, each at a concrete input. -/
theorem transcribe_never_raises_witness :
    transcribe [] (Except.ok ()) (Except.ok "x") = ("", false) ∧
      transcribe [5] (Except.error ()) (Except.ok "x") = ("", false) ∧
      (transcribe [5] (Except.ok ()) (Except.error ())).1 = "" := by
  exact ⟨(transcribe_never_raises [] (Except.ok ()) (Except.ok "x")).1 rfl,
    (transcribe_never_raises [5] (Except.error ()) (Except.ok "x")).2.1 rfl,
    (transcribe_never_raises [5] (Except.ok ()) (Except.error ())).2.2 rfl⟩

/-! ### HotkeyListener (src/dictate/hotkey.py) -/

/-- Recording mode (`push-to-talk` / `toggle`). -/
inductive Mode where
  | pushToTalk
  | toggle
deriving DecidableEq

/-- Session transitions emitted via the `on_start` / `on_stop` callbacks. -/
inductive SessionEvent where
  | start
  | stop
deriving DecidableEq, BEq

/-- Configuration of a `HotkeyListener`.  Key identities (after
`_get_key_identity` normalization) are modelled as naturals.  `modSet` is
the fixed set `MODIFIER_MAP.values()` ({cmd, ctrl, alt, shift});
`modifiers` is `self.modifiers`, `key` is `self.key`.  In the source
`self.key_is_modifier` is exactly `self.key ∈ MODIFIER_MAP.values()`,
so it is derived here as `cfg.key ∈ cfg.modSet`. -/
structure HotkeyCfg where
  key : ℕ
  modifiers : Finset ℕ
  modSet : Finset ℕ
  mode : Mode

/-- Mutable listener state: `_pressed_modifiers`, `_recording`, and the
trace of callbacks fired so far (appended on each `on_start` / `on_stop`
invocation). -/
structure HKState where
  pressedModifiers : Finset ℕ
  recording : Bool
  fired : List SessionEvent
deriving DecidableEq

def initHK : HKState := ⟨∅, false, []⟩

/-- `HotkeyListener._trigger_start` (hotkey.py lines 125-141). -/
def triggerStart (cfg : HotkeyCfg) (s : HKState) : HKState :=
  if cfg.mode = .pushToTalk then
    if s.recording then s
    else { s with recording := true, fired := s.fired ++ [.start] }
  else
    if s.recording then { s with recording := false, fired := s.fired ++ [.stop] }
    else { s with recording := true, fired := s.fired ++ [.start] }

/-- `HotkeyListener._trigger_stop` (hotkey.py lines 170-176). -/
def triggerStop (s : HKState) : HKState :=
  if s.recording then { s with recording := false, fired := s.fired ++ [.stop] }
  else s

/-- `HotkeyListener._on_press` (hotkey.py lines 98-123) for a key that
normalized to identity `k`. -/
def onPress (cfg : HotkeyCfg) (k : ℕ) (s : HKState) : HKState :=
  if k ∈ cfg.modSet then
    if cfg.key ∈ cfg.modSet ∧
        cfg.modifiers ∪ {cfg.key} ⊆ insert k s.pressedModifiers then
      triggerStart cfg { s with pressedModifiers := insert k s.pressedModifiers }
    else { s with pressedModifiers := insert k s.pressedModifiers }
  else if k ≠ cfg.key then s
  else if cfg.modifiers ⊆ s.pressedModifiers then triggerStart cfg s
  else s

/-- `HotkeyListener._on_release` (hotkey.py lines 143-168) for a key that
normalized to identity `k`. -/
def onRelease (cfg : HotkeyCfg) (k : ℕ) (s : HKState) : HKState :=
  if k ∈ cfg.modSet then
    if cfg.mode = .pushToTalk ∧ s.recording then
      if (cfg.key ∈ cfg.modSet ∧ k = cfg.key) ∨ k ∈ cfg.modifiers then
        triggerStop { s with pressedModifiers := s.pressedModifiers.erase k }
      else { s with pressedModifiers := s.pressedModifiers.erase k }
    else { s with pressedModifiers := s.pressedModifiers.erase k }
  else if k ≠ cfg.key then s
  else if cfg.mode = .pushToTalk then triggerStop s
  else s

/-- A raw key event delivered by the keyboard hook. -/
inductive KeyEvent where
  | press (k : ℕ)
  | release (k : ℕ)
deriving DecidableEq

def eventKey : KeyEvent → ℕ
  | .press k => k
  | .release k => k

def hkStep (cfg : HotkeyCfg) (s : HKState) (e : KeyEvent) : HKState :=
  match e with
  | .press k => onPress cfg k s
  | .release k => onRelease cfg k s

def replayFrom (cfg : HotkeyCfg) (s : HKState) (evs : List KeyEvent) : HKState :=
  evs.foldl (hkStep cfg) s

/-- Replay a key-event sequence through a freshly constructed listener. -/
def replay (cfg : HotkeyCfg) (evs : List KeyEvent) : HKState :=
  replayFrom cfg initHK evs

/-- `HotkeyListener.is_recording` (hotkey.py lines 195-198). -/
def is_recording (s : HKState) : Bool := s.recording

/-- Ground-truth held set of the event sequence itself (which physical keys
are down), independent of the listener. -/
def heldStep (h : Finset ℕ) : KeyEvent → Finset ℕ
  | .press k => insert k h
  | .release k => h.erase k

def heldFrom (h : Finset ℕ) (evs : List KeyEvent) : Finset ℕ :=
  evs.foldl heldStep h

def heldAfter (evs : List KeyEvent) : Finset ℕ := heldFrom ∅ evs

/-- Well-formedness of an event sequence starting with held set `h`: no key
is pressed while already held and every release has a matching prior
press. -/
def wfFrom (h : Finset ℕ) : List KeyEvent → Bool
  | [] => true
  | .press k :: rest => if k ∈ h then false else wfFrom (insert k h) rest
  | .release k :: rest => if k ∈ h then wfFrom (h.erase k) rest else false

/-- All keys of the chord: the required modifiers plus the trigger. -/
def chordKeys (cfg : HotkeyCfg) : Finset ℕ := insert cfg.key cfg.modifiers

/-- Number of presses in `evs` (starting from held set `h`) that complete
the full chord: before the press not all chord keys were held, after it
they all are. -/
def countCompleting (chord : Finset ℕ) : Finset ℕ → List KeyEvent → ℕ
  | _, [] => 0
  | h, .press k :: rest =>
    (if ¬ chord ⊆ h ∧ chord ⊆ insert k h then 1 else 0) +
      countCompleting chord (insert k h) rest
  | h, .release k :: rest => countCompleting chord (h.erase k) rest

/-- Number of presses of the trigger key in `evs` made while all required
modifiers were held. -/
def countTriggerPresses (key : ℕ) (mods : Finset ℕ) :
    Finset ℕ → List KeyEvent → ℕ
  | _, [] => 0
  | h, .press k :: rest =>
    (if k = key ∧ mods ⊆ h then 1 else 0) +
      countTriggerPresses key mods (insert k h) rest
  | h, .release k :: rest => countTriggerPresses key mods (h.erase k) rest

/-- The chord `cmd+alt` (trigger `alt`, itself a modifier), push-to-talk.
Key identities: cmd = 0, ctrl = 1, alt = 2, shift = 3. -/
def cmdAltCfg : HotkeyCfg :=
  { key := 2, modifiers := {0}, modSet := {0, 1, 2, 3}, mode := .pushToTalk }

theorem sanity_cmdalt :
    (replay cmdAltCfg [.press 0, .press 2]).fired = [.start] := by decide

/-- Claim C8: with the chord `cmd+alt` (trigger `alt`, required modifier
`cmd`, a modifier-only chord) in push-to-talk mode, press cmd then press alt
fires SessionStart exactly once; the subsequent release of alt fires
SessionStop exactly once; the subsequent release of cmd fires no further
callback. -/
theorem cmdalt_scenario :
    (replay cmdAltCfg [.press 0, .press 2]).fired = [.start] ∧
      (replay cmdAltCfg [.press 0, .press 2, .release 2]).fired = [.start, .stop] ∧
      (replay cmdAltCfg [.press 0, .press 2, .release 2, .release 0]).fired =
        [.start, .stop] := by
  decide

/-- Claim C6: the recording state only transitions Idle→Recording→Idle and
a registered callback is invoked only on an actual state change: in
push-to-talk a start trigger while Recording is a no-op; in toggle a second
start trigger while Recording transitions to Idle and fires the stop
callback instead of the start callback; a stop trigger while Idle fires no
callback; a callback is appended exactly when the recording state changes. -/
theorem trigger_transitions (cfg : HotkeyCfg) (s : HKState) :
    (cfg.mode = .pushToTalk → s.recording = true → triggerStart cfg s = s) ∧
      (cfg.mode = .toggle → s.recording = true →
        (triggerStart cfg s).recording = false ∧
          (triggerStart cfg s).fired = s.fired ++ [.stop]) ∧
      (s.recording = false → (triggerStart cfg s).recording = true ∧
        (triggerStart cfg s).fired = s.fired ++ [.start]) ∧
      (s.recording = false → triggerStop s = s) ∧
      (s.recording = true → (triggerStop s).recording = false ∧
        (triggerStop s).fired = s.fired ++ [.stop]) ∧
      ((triggerStart cfg s).fired = s.fired ↔
        (triggerStart cfg s).recording = s.recording) ∧
      ((triggerStop s).fired = s.fired ↔ (triggerStop s).recording = s.recording) := by
  obtain ⟨p, r, f⟩ := s
  cases hm : cfg.mode <;> cases r <;>
    simp [triggerStart, triggerStop, hm]

/-- Witness for `trigger_transitions`: concrete states on both sides of each
transition, with the hypotheses discharged at `cmdAltCfg` and a toggle
variant of it. -/
theorem trigger_transitions_witness :
    triggerStart cmdAltCfg ⟨{0, 2}, true, [.start]⟩ = ⟨{0, 2}, true, [.start]⟩ ∧
      (triggerStart ⟨2, {0}, {0, 1, 2, 3}, .toggle⟩ ⟨{0, 2}, true, [.start]⟩).fired =
        [.start, .stop] ∧
      triggerStop ⟨∅, false, []⟩ = ⟨∅, false, []⟩ ∧
      (triggerStop ⟨{0, 2}, true, [.start]⟩).fired = [.start, .stop] := by
  refine ⟨(trigger_transitions cmdAltCfg ⟨{0, 2}, true, [.start]⟩).1 rfl rfl, ?_, ?_, ?_⟩
  · have h := ((trigger_transitions ⟨2, {0}, {0, 1, 2, 3}, .toggle⟩
      ⟨{0, 2}, true, [.start]⟩).2.1 rfl rfl).2
    rw [h]
    rfl
  · exact (trigger_transitions cmdAltCfg ⟨∅, false, []⟩).2.2.2.1 rfl
  · have h := ((trigger_transitions cmdAltCfg ⟨{0, 2}, true, [.start]⟩).2.2.2.2.1 rfl).2
    rw [h]
    rfl

theorem triggerStart_pressed (cfg : HotkeyCfg) (s : HKState) :
    (triggerStart cfg s).pressedModifiers = s.pressedModifiers := by
  unfold triggerStart
  split <;> split <;> rfl

theorem triggerStop_pressed (s : HKState) :
    (triggerStop s).pressedModifiers = s.pressedModifiers := by
  unfold triggerStop
  split <;> rfl

theorem triggerStop_recording (s : HKState) : (triggerStop s).recording = false := by
  cases hr : s.recording <;> simp [triggerStop, hr]

theorem triggerStart_ptt_recording (cfg : HotkeyCfg) (s : HKState)
    (h : cfg.mode = .pushToTalk) : (triggerStart cfg s).recording = true := by
  cases hr : s.recording <;> simp [triggerStart, h, hr]

theorem triggerStart_toggle_recording (cfg : HotkeyCfg) (s : HKState)
    (h : cfg.mode = .toggle) : (triggerStart cfg s).recording = !s.recording := by
  cases hr : s.recording <;> simp [triggerStart, h, hr]

theorem erase_inter_left (k : ℕ) (h t : Finset ℕ) :
    (h ∩ t).erase k = h.erase k ∩ t := by
  ext x
  simp only [Finset.mem_erase, Finset.mem_inter]
  tauto

theorem erase_inter_of_not_mem {k : ℕ} {t : Finset ℕ} (h : Finset ℕ) (hk : k ∉ t) :
    h.erase k ∩ t = h ∩ t := by
  ext x
  simp only [Finset.mem_erase, Finset.mem_inter]
  constructor
  · rintro ⟨⟨_, hx⟩, ht⟩
    exact ⟨hx, ht⟩
  · rintro ⟨hx, ht⟩
    exact ⟨⟨fun e => hk (e ▸ ht), hx⟩, ht⟩

theorem chordKeys_eq_union (cfg : HotkeyCfg) :
    cfg.modifiers ∪ {cfg.key} = chordKeys cfg := by
  ext x
  simp [chordKeys, or_comm]

theorem chordKeys_subset_modSet (cfg : HotkeyCfg) (hm : cfg.modifiers ⊆ cfg.modSet)
    (hk : cfg.key ∈ cfg.modSet) : chordKeys cfg ⊆ cfg.modSet := by
  intro x hx
  rcases Finset.mem_insert.mp hx with rfl | hx
  · exact hk
  · exact hm hx

theorem subset_inter_iff_left {c x t : Finset ℕ} (hc : c ⊆ t) :
    c ⊆ x ∩ t ↔ c ⊆ x := by
  rw [Finset.subset_inter_iff]
  exact and_iff_left hc

theorem chord_not_subset_of_not_mem {c h : Finset ℕ} {k : ℕ} (hk : k ∈ c)
    (hh : k ∉ h) : ¬ c ⊆ h := fun hs => hh (hs hk)

theorem hkStep_pressed (cfg : HotkeyCfg) (s : HKState) (e : KeyEvent) (h : Finset ℕ)
    (hs : s.pressedModifiers = h ∩ cfg.modSet) :
    (hkStep cfg s e).pressedModifiers = heldStep h e ∩ cfg.modSet := by
  cases e with
  | press k =>
    simp only [hkStep, onPress, heldStep]
    by_cases hk : k ∈ cfg.modSet
    · rw [if_pos hk]
      have hp : insert k s.pressedModifiers = insert k h ∩ cfg.modSet := by
        rw [hs, Finset.insert_inter_of_mem hk]
      split
      · rw [triggerStart_pressed]
        exact hp
      · exact hp
    · rw [if_neg hk, Finset.insert_inter_of_not_mem hk]
      split
      · exact hs
      · split
        · rw [triggerStart_pressed]
          exact hs
        · exact hs
  | release k =>
    simp only [hkStep, onRelease, heldStep]
    by_cases hk : k ∈ cfg.modSet
    · rw [if_pos hk]
      have hp : s.pressedModifiers.erase k = h.erase k ∩ cfg.modSet := by
        rw [hs, erase_inter_left]
      split
      · split
        · rw [triggerStop_pressed]
          exact hp
        · exact hp
      · exact hp
    · rw [if_neg hk, erase_inter_of_not_mem h hk]
      split
      · exact hs
      · split
        · rw [triggerStop_pressed]
          exact hs
        · exact hs

/-- In push-to-talk mode, releasing any chord key (trigger or required
modifier) always leaves the listener not recording. -/
theorem ptt_release_chord_recording (cfg : HotkeyCfg) (s : HKState) (k : ℕ)
    (hmode : cfg.mode = .pushToTalk) (hmods : cfg.modifiers ⊆ cfg.modSet)
    (hkey : k ∈ chordKeys cfg) :
    (onRelease cfg k s).recording = false := by
  by_cases hk : k ∈ cfg.modSet
  · simp only [onRelease]
    rw [if_pos hk]
    by_cases hr : s.recording = true
    · rw [if_pos ⟨hmode, hr⟩]
      have hin : (cfg.key ∈ cfg.modSet ∧ k = cfg.key) ∨ k ∈ cfg.modifiers := by
        rcases Finset.mem_insert.mp hkey with heq | hm2
        · exact Or.inl ⟨heq ▸ hk, heq⟩
        · exact Or.inr hm2
      rw [if_pos hin, triggerStop_recording]
    · rw [if_neg (fun hc => hr hc.2)]
      cases hb : s.recording
      · rfl
      · exact absurd hb hr
  · simp only [onRelease]
    rw [if_neg hk]
    have hkeq : k = cfg.key := by
      rcases Finset.mem_insert.mp hkey with heq | hm2
      · exact heq
      · exact absurd (hmods hm2) hk
    rw [if_neg (fun hne => hne hkeq), if_pos hmode, triggerStop_recording]

/-- The fire condition of `_on_press` for a modifier key press, rephrased in
terms of the ground-truth held set. -/
theorem onPress_fire_iff (cfg : HotkeyCfg) (s : HKState) (k : ℕ) (h : Finset ℕ)
    (hkeym : cfg.key ∈ cfg.modSet) (hcsub : chordKeys cfg ⊆ cfg.modSet)
    (hkmod : k ∈ cfg.modSet) (hs : s.pressedModifiers = h ∩ cfg.modSet) :
    ((cfg.key ∈ cfg.modSet ∧
        cfg.modifiers ∪ {cfg.key} ⊆ insert k s.pressedModifiers) ↔
      chordKeys cfg ⊆ insert k h) := by
  have hins : insert k s.pressedModifiers = insert k h ∩ cfg.modSet := by
    rw [hs, Finset.insert_inter_of_mem hkmod]
  rw [hins, chordKeys_eq_union, subset_inter_iff_left hcsub]
  exact and_iff_right hkeym

/-- Step preservation for the push-to-talk modifier-only invariant:
recording iff all chord keys are held. -/
theorem ptt_modonly_step (cfg : HotkeyCfg) (s : HKState) (e : KeyEvent)
    (h : Finset ℕ) (hmode : cfg.mode = .pushToTalk)
    (hmods : cfg.modifiers ⊆ cfg.modSet) (hkeym : cfg.key ∈ cfg.modSet)
    (hkey : eventKey e ∈ chordKeys cfg)
    (hs : s.pressedModifiers = h ∩ cfg.modSet)
    (hinv : s.recording = true ↔ chordKeys cfg ⊆ h) :
    ((hkStep cfg s e).recording = true ↔ chordKeys cfg ⊆ heldStep h e) := by
  have hcsub : chordKeys cfg ⊆ cfg.modSet := chordKeys_subset_modSet cfg hmods hkeym
  cases e with
  | press k =>
    have hkmod : k ∈ cfg.modSet := hcsub hkey
    simp only [hkStep, onPress, heldStep]
    rw [if_pos hkmod]
    have hcond := onPress_fire_iff cfg s k h hkeym hcsub hkmod hs
    by_cases hC : chordKeys cfg ⊆ insert k h
    · rw [if_pos (hcond.mpr hC), triggerStart_ptt_recording cfg _ hmode]
      simp [hC]
    · rw [if_neg (fun hc => hC (hcond.mp hc))]
      constructor
      · intro hr
        exact absurd (Finset.Subset.trans (hinv.mp hr) (Finset.subset_insert k h)) hC
      · intro hc
        exact absurd hc hC
  | release k =>
    have hrec : (onRelease cfg k s).recording = false :=
      ptt_release_chord_recording cfg s k hmode hmods hkey
    have hrhs : ¬ chordKeys cfg ⊆ h.erase k :=
      chord_not_subset_of_not_mem hkey (Finset.not_mem_erase k h)
    simp only [hkStep, heldStep]
    rw [hrec]
    simp [hrhs]

/-- Push-to-talk modifier-only chords: after replaying any chord-key
sequence, recording holds iff all chord keys are currently held. -/
theorem ptt_modonly_fold (cfg : HotkeyCfg) (evs : List KeyEvent) :
    ∀ (h : Finset ℕ) (s : HKState), cfg.mode = .pushToTalk →
      cfg.modifiers ⊆ cfg.modSet → cfg.key ∈ cfg.modSet →
      (∀ e ∈ evs, eventKey e ∈ chordKeys cfg) →
      s.pressedModifiers = h ∩ cfg.modSet →
      (s.recording = true ↔ chordKeys cfg ⊆ h) →
      ((replayFrom cfg s evs).recording = true ↔ chordKeys cfg ⊆ heldFrom h evs) := by
  induction evs with
  | nil => exact fun h s _ _ _ _ _ hinv => hinv
  | cons e rest ih =>
    intro h s hmode hmods hkeym hall hs hinv
    exact ih (heldStep h e) (hkStep cfg s e) hmode hmods hkeym
      (fun x hx => hall x (List.mem_cons_of_mem e hx))
      (hkStep_pressed cfg s e h hs)
      (ptt_modonly_step cfg s e h hmode hmods hkeym
        (hall e (List.mem_cons_self e rest)) hs hinv)

/-- Step preservation for push-to-talk (any chord): recording implies all
chord keys are held. -/
theorem ptt_step_impl (cfg : HotkeyCfg) (s : HKState) (e : KeyEvent) (h : Finset ℕ)
    (hmode : cfg.mode = .pushToTalk) (hmods : cfg.modifiers ⊆ cfg.modSet)
    (hkey : eventKey e ∈ chordKeys cfg)
    (hs : s.pressedModifiers = h ∩ cfg.modSet)
    (hinv : s.recording = true → chordKeys cfg ⊆ h) :
    ((hkStep cfg s e).recording = true → chordKeys cfg ⊆ heldStep h e) := by
  cases e with
  | press k =>
    simp only [hkStep, onPress, heldStep]
    by_cases hk : k ∈ cfg.modSet
    · rw [if_pos hk]
      by_cases hC : cfg.key ∈ cfg.modSet ∧
          cfg.modifiers ∪ {cfg.key} ⊆ insert k s.pressedModifiers
      · rw [if_pos hC]
        intro _
        have h1 : cfg.modifiers ∪ {cfg.key} ⊆ insert k (h ∩ cfg.modSet) := by
          rw [← hs]
          exact hC.2
        rw [chordKeys_eq_union] at h1
        exact h1.trans (Finset.insert_subset_insert k Finset.inter_subset_left)
      · rw [if_neg hC]
        intro hr
        exact (hinv hr).trans (Finset.subset_insert k h)
    · rw [if_neg hk]
      by_cases hkq : k ≠ cfg.key
      · rw [if_pos hkq]
        intro hr
        exact (hinv hr).trans (Finset.subset_insert k h)
      · rw [if_neg hkq]
        push_neg at hkq
        subst hkq
        by_cases hm2 : cfg.modifiers ⊆ s.pressedModifiers
        · rw [if_pos hm2]
          intro _
          rw [chordKeys]
          have hmh : cfg.modifiers ⊆ h := by
            rw [hs] at hm2
            exact hm2.trans Finset.inter_subset_left
          exact Finset.insert_subset (Finset.mem_insert_self _ h)
            (hmh.trans (Finset.subset_insert _ h))
        · rw [if_neg hm2]
          intro hr
          exact (hinv hr).trans (Finset.subset_insert _ h)
  | release k =>
    intro hr
    simp only [hkStep] at hr
    rw [ptt_release_chord_recording cfg s k hmode hmods hkey] at hr
    exact absurd hr (by simp)

/-- Push-to-talk, any chord: after replaying any chord-key sequence,
recording implies all chord keys are currently held. -/
theorem ptt_impl_fold (cfg : HotkeyCfg) (evs : List KeyEvent) :
    ∀ (h : Finset ℕ) (s : HKState), cfg.mode = .pushToTalk →
      cfg.modifiers ⊆ cfg.modSet →
      (∀ e ∈ evs, eventKey e ∈ chordKeys cfg) →
      s.pressedModifiers = h ∩ cfg.modSet →
      (s.recording = true → chordKeys cfg ⊆ h) →
      ((replayFrom cfg s evs).recording = true → chordKeys cfg ⊆ heldFrom h evs) := by
  induction evs with
  | nil => exact fun h s _ _ _ _ hinv => hinv
  | cons e rest ih =>
    intro h s hmode hmods hall hs hinv
    exact ih (heldStep h e) (hkStep cfg s e) hmode hmods
      (fun x hx => hall x (List.mem_cons_of_mem e hx))
      (hkStep_pressed cfg s e h hs)
      (ptt_step_impl cfg s e h hmode hmods
        (hall e (List.mem_cons_self e rest)) hs hinv)

theorem parity_one_add (n : ℕ) :
    decide ((1 + n) % 2 = 1) = !decide (n % 2 = 1) := by
  by_cases h : n % 2 = 1
  · have h2 : (1 + n) % 2 = 0 := by omega
    simp [h, h2]
  · have h2 : (1 + n) % 2 = 1 := by omega
    simp [h, h2]

theorem xor_not_left_eq (a b : Bool) : Bool.xor (!a) b = Bool.xor a (!b) := by
  cases a <;> cases b <;> rfl

/-- Toggle mode, modifier-only chord: the recording state after replay
equals the parity of the number of chord-completing presses. -/
theorem toggle_modonly_fold (cfg : HotkeyCfg) (evs : List KeyEvent) :
    ∀ (h : Finset ℕ) (s : HKState), cfg.mode = .toggle →
      cfg.modifiers ⊆ cfg.modSet → cfg.key ∈ cfg.modSet →
      wfFrom h evs = true →
      (∀ e ∈ evs, eventKey e ∈ chordKeys cfg) →
      s.pressedModifiers = h ∩ cfg.modSet →
      (replayFrom cfg s evs).recording =
        Bool.xor (decide (countCompleting (chordKeys cfg) h evs % 2 = 1))
          s.recording := by
  induction evs with
  | nil =>
    intro h s _ _ _ _ _ _
    simp [replayFrom, countCompleting]
  | cons e rest ih =>
    intro h s hmode hmods hkeym hwf hall hs
    have hcsub : chordKeys cfg ⊆ cfg.modSet := chordKeys_subset_modSet cfg hmods hkeym
    have hkey := hall e (List.mem_cons_self e rest)
    have hrest := fun x hx => hall x (List.mem_cons_of_mem e hx)
    cases e with
    | press k =>
      have hkmod : k ∈ cfg.modSet := hcsub hkey
      have hknotin : k ∉ h := by
        by_contra hkin
        simp [wfFrom, hkin] at hwf
      have hwrest : wfFrom (insert k h) rest = true := by
        simpa [wfFrom, hknotin] using hwf
      have hnots : ¬ chordKeys cfg ⊆ h := chord_not_subset_of_not_mem hkey hknotin
      have hcond := onPress_fire_iff cfg s k h hkeym hcsub hkmod hs
      have hcount : countCompleting (chordKeys cfg) h (KeyEvent.press k :: rest) =
          (if ¬ chordKeys cfg ⊆ h ∧ chordKeys cfg ⊆ insert k h then 1 else 0) +
            countCompleting (chordKeys cfg) (insert k h) rest := rfl
      by_cases hC : chordKeys cfg ⊆ insert k h
      · have hstep : hkStep cfg s (KeyEvent.press k) =
            triggerStart cfg { s with pressedModifiers := insert k s.pressedModifiers } := by
          simp only [hkStep, onPress]
          rw [if_pos hkmod, if_pos (hcond.mpr hC)]
        have hpressed : (triggerStart cfg
            { s with pressedModifiers := insert k s.pressedModifiers }).pressedModifiers =
            insert k h ∩ cfg.modSet := by
          rw [triggerStart_pressed]
          show insert k s.pressedModifiers = _
          rw [hs, Finset.insert_inter_of_mem hkmod]
        have hih := ih (insert k h) _ hmode hmods hkeym hwrest hrest hpressed
        have hrec : (triggerStart cfg
            { s with pressedModifiers := insert k s.pressedModifiers }).recording =
            !s.recording :=
          triggerStart_toggle_recording cfg _ hmode
        calc (replayFrom cfg s (KeyEvent.press k :: rest)).recording
            = (replayFrom cfg (triggerStart cfg
                { s with pressedModifiers := insert k s.pressedModifiers })
                rest).recording := by
              rw [show replayFrom cfg s (KeyEvent.press k :: rest) =
                replayFrom cfg (hkStep cfg s (KeyEvent.press k)) rest from rfl, hstep]
          _ = Bool.xor
                (decide (countCompleting (chordKeys cfg) (insert k h) rest % 2 = 1))
                (!s.recording) := by rw [hih, hrec]
          _ = Bool.xor
                (decide (countCompleting (chordKeys cfg) h
                  (KeyEvent.press k :: rest) % 2 = 1)) s.recording := by
              rw [hcount, if_pos ⟨hnots, hC⟩, parity_one_add, xor_not_left_eq]
      · have hstep : hkStep cfg s (KeyEvent.press k) =
            { s with pressedModifiers := insert k s.pressedModifiers } := by
          simp only [hkStep, onPress]
          rw [if_pos hkmod, if_neg (fun hc => hC (hcond.mp hc))]
        have hpressed :
            ({ s with pressedModifiers := insert k s.pressedModifiers } : HKState).pressedModifiers =
            insert k h ∩ cfg.modSet := by
          show insert k s.pressedModifiers = _
          rw [hs, Finset.insert_inter_of_mem hkmod]
        have hih := ih (insert k h) _ hmode hmods hkeym hwrest hrest hpressed
        calc (replayFrom cfg s (KeyEvent.press k :: rest)).recording
            = (replayFrom cfg
                ({ s with pressedModifiers := insert k s.pressedModifiers })
                rest).recording := by
              rw [show replayFrom cfg s (KeyEvent.press k :: rest) =
                replayFrom cfg (hkStep cfg s (KeyEvent.press k)) rest from rfl, hstep]
          _ = Bool.xor
                (decide (countCompleting (chordKeys cfg) (insert k h) rest % 2 = 1))
                s.recording := hih
          _ = Bool.xor
                (decide (countCompleting (chordKeys cfg) h
                  (KeyEvent.press k :: rest) % 2 = 1)) s.recording := by
              rw [hcount, if_neg (fun hc => hC hc.2), Nat.zero_add]
    | release k =>
      have hkmod : k ∈ cfg.modSet := hcsub hkey
      have hkin : k ∈ h := by
        by_contra hkin
        simp [wfFrom, hkin] at hwf
      have hwrest : wfFrom (h.erase k) rest = true := by
        simpa [wfFrom, hkin] using hwf
      have hstep : hkStep cfg s (KeyEvent.release k) =
          { s with pressedModifiers := s.pressedModifiers.erase k } := by
        simp only [hkStep, onRelease]
        rw [if_pos hkmod,
          if_neg (fun hc => Mode.noConfusion (hmode.symm.trans hc.1))]
      have hpressed :
          ({ s with pressedModifiers := s.pressedModifiers.erase k } : HKState).pressedModifiers =
          h.erase k ∩ cfg.modSet := by
        show s.pressedModifiers.erase k = _
        rw [hs, erase_inter_left]
      have hih := ih (h.erase k) _ hmode hmods hkeym hwrest hrest hpressed
      calc (replayFrom cfg s (KeyEvent.release k :: rest)).recording
          = (replayFrom cfg
              ({ s with pressedModifiers := s.pressedModifiers.erase k })
              rest).recording := by
            rw [show replayFrom cfg s (KeyEvent.release k :: rest) =
              replayFrom cfg (hkStep cfg s (KeyEvent.release k)) rest from rfl, hstep]
        _ = Bool.xor
              (decide (countCompleting (chordKeys cfg) (h.erase k) rest % 2 = 1))
              s.recording := hih
        _ = Bool.xor
              (decide (countCompleting (chordKeys cfg) h
                (KeyEvent.release k :: rest) % 2 = 1)) s.recording := rfl

/-- Toggle mode, non-modifier trigger: the recording state after replay
equals the parity of the number of trigger presses made while all required
modifiers were held. -/
theorem toggle_trigger_fold (cfg : HotkeyCfg) (evs : List KeyEvent) :
    ∀ (h : Finset ℕ) (s : HKState), cfg.mode = .toggle →
      cfg.modifiers ⊆ cfg.modSet → cfg.key ∉ cfg.modSet →
      (∀ e ∈ evs, eventKey e ∈ chordKeys cfg) →
      s.pressedModifiers = h ∩ cfg.modSet →
      (replayFrom cfg s evs).recording =
        Bool.xor
          (decide (countTriggerPresses cfg.key cfg.modifiers h evs % 2 = 1))
          s.recording := by
  induction evs with
  | nil =>
    intro h s _ _ _ _ _
    simp [replayFrom, countTriggerPresses]
  | cons e rest ih =>
    intro h s hmode hmods hkeyn hall hs
    have hkey := hall e (List.mem_cons_self e rest)
    have hrest := fun x hx => hall x (List.mem_cons_of_mem e hx)
    cases e with
    | press k =>
      by_cases hk : k ∈ cfg.modSet
      · have hstep : hkStep cfg s (KeyEvent.press k) =
            { s with pressedModifiers := insert k s.pressedModifiers } := by
          simp only [hkStep, onPress]
          rw [if_pos hk, if_neg (fun hc => hkeyn hc.1)]
        have hcount : countTriggerPresses cfg.key cfg.modifiers h
            (KeyEvent.press k :: rest) =
            (if k = cfg.key ∧ cfg.modifiers ⊆ h then 1 else 0) +
              countTriggerPresses cfg.key cfg.modifiers (insert k h) rest := rfl
        have hpressed :
            ({ s with pressedModifiers := insert k s.pressedModifiers } : HKState).pressedModifiers =
            insert k h ∩ cfg.modSet := by
          show insert k s.pressedModifiers = _
          rw [hs, Finset.insert_inter_of_mem hk]
        have hih := ih (insert k h) _ hmode hmods hkeyn hrest hpressed
        calc (replayFrom cfg s (KeyEvent.press k :: rest)).recording
            = (replayFrom cfg
                ({ s with pressedModifiers := insert k s.pressedModifiers })
                rest).recording := by
              rw [show replayFrom cfg s (KeyEvent.press k :: rest) =
                replayFrom cfg (hkStep cfg s (KeyEvent.press k)) rest from rfl, hstep]
          _ = Bool.xor
                (decide (countTriggerPresses cfg.key cfg.modifiers
                  (insert k h) rest % 2 = 1)) s.recording := hih
          _ = Bool.xor
                (decide (countTriggerPresses cfg.key cfg.modifiers h
                  (KeyEvent.press k :: rest) % 2 = 1)) s.recording := by
              rw [hcount,
                if_neg (fun hc : k = cfg.key ∧ cfg.modifiers ⊆ h =>
                  hkeyn (hc.1 ▸ hk)),
                Nat.zero_add]
      · have hkeq : k = cfg.key := by
          rcases Finset.mem_insert.mp hkey with heq | hm2
          · exact heq
          · exact absurd (hmods hm2) hk
        have hcount : countTriggerPresses cfg.key cfg.modifiers h
            (KeyEvent.press k :: rest) =
            (if k = cfg.key ∧ cfg.modifiers ⊆ h then 1 else 0) +
              countTriggerPresses cfg.key cfg.modifiers (insert k h) rest := rfl
        by_cases hm2 : cfg.modifiers ⊆ h
        · have hsub : cfg.modifiers ⊆ s.pressedModifiers := by
            rw [hs]
            exact (subset_inter_iff_left hmods).mpr hm2
          have hstep : hkStep cfg s (KeyEvent.press k) = triggerStart cfg s := by
            simp only [hkStep, onPress]
            rw [if_neg hk, if_neg (fun hne => hne hkeq), if_pos hsub]
          have hpressed : (triggerStart cfg s).pressedModifiers =
              insert k h ∩ cfg.modSet := by
            rw [triggerStart_pressed, hs, Finset.insert_inter_of_not_mem hk]
          have hih := ih (insert k h) _ hmode hmods hkeyn hrest hpressed
          have hrec : (triggerStart cfg s).recording = !s.recording :=
            triggerStart_toggle_recording cfg s hmode
          calc (replayFrom cfg s (KeyEvent.press k :: rest)).recording
              = (replayFrom cfg (triggerStart cfg s) rest).recording := by
                rw [show replayFrom cfg s (KeyEvent.press k :: rest) =
                  replayFrom cfg (hkStep cfg s (KeyEvent.press k)) rest from rfl,
                  hstep]
            _ = Bool.xor
                  (decide (countTriggerPresses cfg.key cfg.modifiers
                    (insert k h) rest % 2 = 1)) (!s.recording) := by
                rw [hih, hrec]
            _ = Bool.xor
                  (decide (countTriggerPresses cfg.key cfg.modifiers h
                    (KeyEvent.press k :: rest) % 2 = 1)) s.recording := by
                rw [hcount, if_pos ⟨hkeq, hm2⟩, parity_one_add, xor_not_left_eq]
        · have hnsub : ¬ cfg.modifiers ⊆ s.pressedModifiers := by
            rw [hs]
            exact fun hc => hm2 ((subset_inter_iff_left hmods).mp hc)
          have hstep : hkStep cfg s (KeyEvent.press k) = s := by
            simp only [hkStep, onPress]
            rw [if_neg hk, if_neg (fun hne => hne hkeq), if_neg hnsub]
          have hpressed : s.pressedModifiers = insert k h ∩ cfg.modSet := by
            rw [hs, Finset.insert_inter_of_not_mem hk]
          have hih := ih (insert k h) s hmode hmods hkeyn hrest hpressed
          calc (replayFrom cfg s (KeyEvent.press k :: rest)).recording
              = (replayFrom cfg s rest).recording := by
                rw [show replayFrom cfg s (KeyEvent.press k :: rest) =
                  replayFrom cfg (hkStep cfg s (KeyEvent.press k)) rest from rfl,
                  hstep]
            _ = Bool.xor
                  (decide (countTriggerPresses cfg.key cfg.modifiers
                    (insert k h) rest % 2 = 1)) s.recording := hih
            _ = Bool.xor
                  (decide (countTriggerPresses cfg.key cfg.modifiers h
                    (KeyEvent.press k :: rest) % 2 = 1)) s.recording := by
                rw [hcount, if_neg (fun hc => hm2 hc.2), Nat.zero_add]
    | release k =>
      by_cases hk : k ∈ cfg.modSet
      · have hstep : hkStep cfg s (KeyEvent.release k) =
            { s with pressedModifiers := s.pressedModifiers.erase k } := by
          simp only [hkStep, onRelease]
          rw [if_pos hk,
            if_neg (fun hc => Mode.noConfusion (hmode.symm.trans hc.1))]
        have hpressed :
            ({ s with pressedModifiers := s.pressedModifiers.erase k } : HKState).pressedModifiers =
            h.erase k ∩ cfg.modSet := by
          show s.pressedModifiers.erase k = _
          rw [hs, erase_inter_left]
        have hih := ih (h.erase k) _ hmode hmods hkeyn hrest hpressed
        calc (replayFrom cfg s (KeyEvent.release k :: rest)).recording
            = (replayFrom cfg
                ({ s with pressedModifiers := s.pressedModifiers.erase k })
                rest).recording := by
              rw [show replayFrom cfg s (KeyEvent.release k :: rest) =
                replayFrom cfg (hkStep cfg s (KeyEvent.release k)) rest from rfl,
                hstep]
          _ = Bool.xor
                (decide (countTriggerPresses cfg.key cfg.modifiers
                  (h.erase k) rest % 2 = 1)) s.recording := hih
          _ = Bool.xor
                (decide (countTriggerPresses cfg.key cfg.modifiers h
                  (KeyEvent.release k :: rest) % 2 = 1)) s.recording := rfl
      · have hkeq : k = cfg.key := by
          rcases Finset.mem_insert.mp hkey with heq | hm2
          · exact heq
          · exact absurd (hmods hm2) hk
        have hstep : hkStep cfg s (KeyEvent.release k) = s := by
          simp only [hkStep, onRelease]
          rw [if_neg hk, if_neg (fun hne => hne hkeq),
            if_neg (fun hc => Mode.noConfusion (hmode.symm.trans hc))]
        have hpressed : s.pressedModifiers = h.erase k ∩ cfg.modSet := by
          rw [hkeq, erase_inter_of_not_mem h hkeyn]
          exact hs
        have hih := ih (h.erase k) s hmode hmods hkeyn hrest hpressed
        calc (replayFrom cfg s (KeyEvent.release k :: rest)).recording
            = (replayFrom cfg s rest).recording := by
              rw [show replayFrom cfg s (KeyEvent.release k :: rest) =
                replayFrom cfg (hkStep cfg s (KeyEvent.release k)) rest from rfl,
                hstep]
          _ = Bool.xor
                (decide (countTriggerPresses cfg.key cfg.modifiers
                  (h.erase k) rest % 2 = 1)) s.recording := hih
          _ = Bool.xor
                (decide (countTriggerPresses cfg.key cfg.modifiers h
                  (KeyEvent.release k :: rest) % 2 = 1)) s.recording := rfl

/-- Claim C3 (amended): for every well-formed sequence of press/release
events over the keys of a fixed chord (no key pressed twice, each release
preceded by a matching press), after replaying the sequence:
in PushToTalk mode, recording implies all chord keys are currently held,
and when the trigger is itself a modifier (modifier-only chord) recording
holds if and only if all chord keys are held; in Toggle mode, the recording
state equals the parity of the chord-completing presses when the chord is
modifier-only, and the parity of the presses of the trigger made while all
required modifiers were held when the trigger is a non-modifier key. -/
theorem hotkey_replay_modes (cfg : HotkeyCfg) (evs : List KeyEvent)
    (hmods : cfg.modifiers ⊆ cfg.modSet)
    (hwf : wfFrom ∅ evs = true)
    (hall : ∀ e ∈ evs, eventKey e ∈ chordKeys cfg) :
    (cfg.mode = .pushToTalk → is_recording (replay cfg evs) = true →
      chordKeys cfg ⊆ heldAfter evs) ∧
      (cfg.mode = .pushToTalk → cfg.key ∈ cfg.modSet →
        (is_recording (replay cfg evs) = true ↔ chordKeys cfg ⊆ heldAfter evs)) ∧
      (cfg.mode = .toggle → cfg.key ∈ cfg.modSet →
        is_recording (replay cfg evs) =
          decide (countCompleting (chordKeys cfg) ∅ evs % 2 = 1)) ∧
      (cfg.mode = .toggle → cfg.key ∉ cfg.modSet →
        is_recording (replay cfg evs) =
          decide (countTriggerPresses cfg.key cfg.modifiers ∅ evs % 2 = 1)) := by
  have hpress0 : (initHK).pressedModifiers = ∅ ∩ cfg.modSet := by
    simp [initHK]
  refine ⟨?_, ?_, ?_, ?_⟩
  · intro hmode
    exact ptt_impl_fold cfg evs ∅ initHK hmode hmods hall hpress0
      (fun hr => absurd hr (by simp [initHK]))
  · intro hmode hkeym
    have h0 : (initHK).recording = true ↔ chordKeys cfg ⊆ ∅ := by
      constructor
      · intro hr
        exact absurd hr (by simp [initHK])
      · intro hsub
        exact absurd (hsub (Finset.mem_insert_self _ _)) (Finset.not_mem_empty _)
    exact ptt_modonly_fold cfg evs ∅ initHK hmode hmods hkeym hall hpress0 h0
  · intro hmode hkeym
    have hf := toggle_modonly_fold cfg evs ∅ initHK hmode hmods hkeym hwf hall hpress0
    simpa [initHK, is_recording, replay] using hf
  · intro hmode hkeyn
    have hf := toggle_trigger_fold cfg evs ∅ initHK hmode hmods hkeyn hall hpress0
    simpa [initHK, is_recording, replay] using hf

/-- The chord `cmd+space` (non-modifier trigger space = 10, required
modifier cmd = 0), push-to-talk. -/
def cmdSpaceCfg : HotkeyCfg :=
  { key := 10, modifiers := {0}, modSet := {0, 1, 2, 3}, mode := .pushToTalk }

/-- Counterexample to claim C3 as stated: with chord `cmd+space` in
push-to-talk mode, the well-formed chord-key sequence press space, press
cmd leaves every chord key held yet `is_recording()` false — pressing a
required modifier after the trigger never fires `_trigger_start` when the
trigger is a non-modifier key, so "recording iff all chord keys held"
fails. -/
theorem hotkey_claim_counterexample :
    wfFrom ∅ [.press 10, .press 0] = true ∧
      eventKey (KeyEvent.press 10) ∈ chordKeys cmdSpaceCfg ∧
      eventKey (KeyEvent.press 0) ∈ chordKeys cmdSpaceCfg ∧
      chordKeys cmdSpaceCfg ⊆ heldAfter [.press 10, .press 0] ∧
      is_recording (replay cmdSpaceCfg [.press 10, .press 0]) = false := by
  decide

/-- Witness for `hotkey_replay_modes` at the modifier-only chord `cmd+alt`
with the concrete sequence press cmd, press alt. -/
theorem hotkey_replay_modes_witness :
    is_recording (replay cmdAltCfg [.press 0, .press 2]) = true := by
  have h := (hotkey_replay_modes cmdAltCfg [.press 0, .press 2]
    (by decide) (by decide) (by decide)).2.1 rfl (by decide)
  exact h.mpr (by decide)
